import Mathlib

/-!
Verification of the tile-keyed content-addressed image storage engine
(`lib/imagestore` of the `imageencoder` repository).

Shallow embedding conventions:
* 8-bit RGB samples are modelled as `Nat` values (byte range hypotheses
  `≤ 255` are added where a property depends on them).
* A decoded raster (the output of the external image codec, which the spec
  treats as a black box producing an 8-bit RGB raster) is a width, a height
  and a total pixel function.
* Go slices of bytes become `List Nat`; Go `int8` values become `Int`.
* The SHA-256 tile hash is modelled as an arbitrary deterministic function
  into an arbitrary type with decidable equality; every theorem below is
  proved for all such hash functions.
* `float64` arithmetic (perceptual distance) is modelled with exact rational
  and real arithmetic.
-/

namespace ImageStore

/-- An 8-bit RGB sample triple (one pixel), as produced by `extractTileData`
in `tiles.go` (`r`, `g`, `b` each one byte). -/
structure RGB where
  r : Nat
  g : Nat
  b : Nat
deriving DecidableEq, Repr

/-- The three bytes of a pixel in channel order R,G,B, as written by
`extractTileData` (`data[i] = r; data[i+1] = g; data[i+2] = b`). -/
def RGB.bytes (p : RGB) : List Nat := [p.r, p.g, p.b]

/-- A decoded raster: dimensions plus a pixel function (the model of
`image.Image` restricted to 8-bit RGB, with `img.At(x, y)` total). -/
structure Raster where
  width : Nat
  height : Nat
  pix : Nat → Nat → RGB

/-- `extractTileData` from `tiles.go`: extract the RGB data of the tile with
source rectangle `[x0, x1) × [y0, y1)` from the raster, iterating `y` then
`x` over `[0, tileSize)` and emitting three bytes per sample; samples with
`srcX ≥ x1` or `srcY ≥ y1` are left at the zero value `(0,0,0)` (padding). -/
def extractTileData (img : Raster) (x0 y0 x1 y1 tileSize : Nat) : List Nat :=
  (List.range tileSize).flatMap fun y =>
    (List.range tileSize).flatMap fun x =>
      if x0 + x < x1 ∧ y0 + y < y1 then (img.pix (x0 + x) (y0 + y)).bytes
      else [0, 0, 0]

/-- A tile together with its positioned reference, merging the parallel
`Tile` and `TileRef` values produced by `ExtractTiles` in `tiles.go`
(the `i`-th tile and the `i`-th ref always carry the same ID and the
same grid coordinates in the source). `H` is the hash/ID type. -/
structure TileEntry (H : Type) where
  x : Nat
  y : Nat
  id : H
  data : List Nat
deriving Repr, DecidableEq

/-- Number of tiles along one axis: `int(math.Ceil(float64(w)/float64(t)))`
from `ExtractTiles`, as exact ceiling division. -/
def tilesAlong (w tileSize : Nat) : Nat := (w + tileSize - 1) / tileSize

/-- `ExtractTiles` from `tiles.go`: divide the raster into
`tilesAlong width × tilesAlong height` tiles in row-major order
(`tileY` outer, `tileX` inner); each tile's data is `extractTileData`
with `x1 = min (x0 + tileSize) width` and `y1 = min (y0 + tileSize) height`,
and its ID is the hash of its data (`GenerateTileID(ComputeTileHash(data))`,
modelled by the arbitrary hash function `hashFn`). The `error` result of the
source function is always `nil` and is omitted. -/
def ExtractTiles {H : Type} (hashFn : List Nat → H) (img : Raster)
    (tileSize : Nat) : List (TileEntry H) :=
  (List.range (tilesAlong img.height tileSize)).flatMap fun tileY =>
    (List.range (tilesAlong img.width tileSize)).map fun tileX =>
      let tileData := extractTileData img (tileX * tileSize) (tileY * tileSize)
        (min (tileX * tileSize + tileSize) img.width)
        (min (tileY * tileSize + tileSize) img.height) tileSize
      { x := tileX, y := tileY, id := hashFn tileData, data := tileData }

section FlatIndex

variable {α β : Type}

/-- Indexing into a concatenation of constant-length blocks. -/
theorem flatMap_getD_blocks (f : α → List β) (k : Nat) (d : β) :
    ∀ (l : List α) (j r : Nat), (∀ a ∈ l, (f a).length = k) →
      (hj : j < l.length) → r < k →
      (l.flatMap f).getD (j * k + r) d = (f (l.get ⟨j, hj⟩)).getD r d := by
  intro l
  induction l with
  | nil => intro j r _ hj _; exact absurd hj (by simp)
  | cons a t ih =>
    intro j r hlen hj hr
    cases j with
    | zero =>
      simp only [List.flatMap_cons, List.get]
      rw [Nat.zero_mul, Nat.zero_add]
      have hfa : (f a).length = k := hlen a (by simp)
      rw [List.getD_eq_getElem?_getD, List.getElem?_append,
        if_pos (by omega), ← List.getD_eq_getElem?_getD]
    | succ j' =>
      simp only [List.flatMap_cons, List.get]
      have hfa : (f a).length = k := hlen a (by simp)
      have hge : (f a).length ≤ j' * k + k + r := by
        have : k ≤ j' * k + k := by omega
        omega
      rw [Nat.succ_mul]
      have : j' * k + k + r = (f a).length + (j' * k + r) := by omega
      rw [this, List.getD_eq_getElem?_getD, List.getElem?_append_right (by omega)]
      have : (f a).length + (j' * k + r) - (f a).length = j' * k + r := by omega
      rw [this, ← List.getD_eq_getElem?_getD]
      exact ih j' r (fun b hb => hlen b (by simp [hb])) (by simpa using hj) hr

/-- Length of a concatenation of constant-length blocks. -/
theorem flatMap_length_blocks (f : α → List β) (k : Nat) :
    ∀ (l : List α), (∀ a ∈ l, (f a).length = k) →
      (l.flatMap f).length = l.length * k := by
  intro l
  induction l with
  | nil => simp
  | cons a t ih =>
    intro hlen
    simp only [List.flatMap_cons, List.length_append, List.length_cons]
    rw [hlen a (by simp), ih (fun b hb => hlen b (by simp [hb]))]
    ring

end FlatIndex

/-- The tile data produced by `extractTileData` has length
`tileSize * tileSize * 3`. -/
theorem extractTileData_length (img : Raster) (x0 y0 x1 y1 T : Nat) :
    (extractTileData img x0 y0 x1 y1 T).length = T * T * 3 := by
  unfold extractTileData
  have hrow : ∀ y ∈ List.range T,
      ((List.range T).flatMap fun x =>
        if x0 + x < x1 ∧ y0 + y < y1 then (img.pix (x0 + x) (y0 + y)).bytes
        else [0, 0, 0]).length = T * 3 := by
    intro y _
    rw [flatMap_length_blocks _ 3]
    · simp
    · intro x _
      by_cases h : x0 + x < x1 ∧ y0 + y < y1 <;> simp [h, RGB.bytes]
  rw [flatMap_length_blocks _ (T * 3) _ hrow]
  simp
  ring

/-- The byte of `extractTileData` at flat index `(y*T + x)*3 + c`
(the index written by the source loop for local coordinates `(x, y)` and
channel `c`) is channel `c` of the source pixel when `(x0+x, y0+y)` is inside
`[x0, x1) × [y0, y1)`, and `0` otherwise. -/
theorem extractTileData_getD (img : Raster) (x0 y0 x1 y1 T x y c : Nat)
    (hx : x < T) (hy : y < T) (hc : c < 3) :
    (extractTileData img x0 y0 x1 y1 T).getD ((y * T + x) * 3 + c) 0 =
      (if x0 + x < x1 ∧ y0 + y < y1 then (img.pix (x0 + x) (y0 + y)).bytes
        else [0, 0, 0]).getD c 0 := by
  unfold extractTileData
  have hrow : ∀ y' ∈ List.range T,
      ((List.range T).flatMap fun x' =>
        if x0 + x' < x1 ∧ y0 + y' < y1 then (img.pix (x0 + x') (y0 + y')).bytes
        else [0, 0, 0]).length = T * 3 := by
    intro y' _
    rw [flatMap_length_blocks _ 3]
    · simp
    · intro x' _
      by_cases h : x0 + x' < x1 ∧ y0 + y' < y1 <;> simp [h, RGB.bytes]
  have hidx : (y * T + x) * 3 + c = y * (T * 3) + (x * 3 + c) := by ring
  rw [hidx, flatMap_getD_blocks _ (T * 3) 0 _ y (x * 3 + c) hrow
    (by simpa using hy) (by omega)]
  have hget : (List.range T).get ⟨y, by simpa using hy⟩ = y := by simp
  rw [hget]
  rw [flatMap_getD_blocks _ 3 0 _ x c
    (by intro x' _; by_cases h : x0 + x' < x1 ∧ y0 + y < y1 <;>
      simp [h, RGB.bytes]) (by simpa using hx) hc]
  have hgetx : (List.range T).get ⟨x, by simpa using hx⟩ = x := by simp
  rw [hgetx]

/-- The model of an `image.RGBA` output raster: a total pixel function
(`image.NewRGBA` initializes every sample to zero; alpha is ignored since
the engine only reads R,G,B). -/
abbrev Img := Nat → Nat → RGB

/-- A single `img.Set(x, y, v)` call: update the pixel function at one
coordinate. -/
def setPix (img : Img) (x y : Nat) (v : RGB) : Img :=
  fun a b => if a = x ∧ b = y then v else img a b

/-- The pixel read from flat tile data at local coordinates `(x, y)`:
`i := (y*tileSize + x) * 3; r := tileData[i]; g := tileData[i+1];
b := tileData[i+2]` from `placeTileData` in `tiles.go`. -/
def rgbAt (data : List Nat) (T x y : Nat) : RGB :=
  { r := data.getD ((y * T + x) * 3) 0
    g := data.getD ((y * T + x) * 3 + 1) 0
    b := data.getD ((y * T + x) * 3 + 2) 0 }

/-- The nested placement loop of `placeTileData` in `tiles.go`: for `y` then
`x` in `[0, tileSize)`, set pixel `(offsetX+x, offsetY+y)` to the tile sample
whenever it is within the `imgWidth × imgHeight` bounds. -/
def placePure (img : Img) (data : List Nat) (offX offY T W H : Nat) : Img :=
  (List.range T).foldl
    (fun im y =>
      (List.range T).foldl
        (fun im2 x =>
          if offX + x < W ∧ offY + y < H then
            setPix im2 (offX + x) (offY + y) (rgbAt data T x y)
          else im2)
        im)
    img

/-- `placeTileData` from `tiles.go`: reject tile data of the wrong size,
otherwise run the placement loop. -/
def placeTileData (img : Img) (data : List Nat) (offX offY T W H : Nat) :
    Except String Img :=
  if data.length ≠ T * T * 3 then .error "invalid tile data size"
  else .ok (placePure img data offX offY T W H)

/-- The all-zero raster produced by `image.NewRGBA`. -/
def zeroImg : Img := fun _ _ => { r := 0, g := 0, b := 0 }

/-- `ReconstructImage` from `tiles.go`, with the `getTileData` resolver
already applied: it walks the tile references in order and places each
reference's resolved tile bytes at `(tileX*tileSize, tileY*tileSize)`.
In the round-trip claim each `TileRef` resolves to its own extracted data,
so the walk is over `TileEntry` values that pair every reference with the
bytes the resolver returns for its tile ID. -/
def ReconstructImage {κ : Type} (W H T : Nat) (entries : List (TileEntry κ)) :
    Except String Img :=
  entries.foldlM
    (fun img t => placeTileData img t.data (t.x * T) (t.y * T) T W H) zeroImg

/-- The total placement fold underlying `ReconstructImage` (every
`placeTileData` call succeeds when all tile data has the right length). -/
def reconPure {κ : Type} (W H T : Nat) (entries : List (TileEntry κ))
    (img : Img) : Img :=
  entries.foldl
    (fun im t => placePure im t.data (t.x * T) (t.y * T) T W H) img

theorem Except_ok_bind {ε α β : Type} (a : α) (f : α → Except ε β) :
    (Except.ok a >>= f) = f a := rfl

/-- Closed form of one row of the placement loop. -/
theorem place_row_eval (data : List Nat) (T offX offY W H y : Nat) :
    ∀ (n : Nat) (img : Img) (px py : Nat),
      ((List.range n).foldl
        (fun im2 x =>
          if offX + x < W ∧ offY + y < H then
            setPix im2 (offX + x) (offY + y) (rgbAt data T x y)
          else im2) img) px py =
      if offX ≤ px ∧ px < offX + n ∧ py = offY + y ∧ px < W ∧ py < H then
        rgbAt data T (px - offX) y
      else img px py := by
  intro n
  induction n with
  | zero =>
    intro img px py
    rw [List.range_zero, List.foldl_nil, if_neg (by omega)]
  | succ n ih =>
    intro img px py
    rw [List.range_succ, List.foldl_append, List.foldl_cons, List.foldl_nil]
    by_cases hb : offX + n < W ∧ offY + y < H
    · rw [if_pos hb]
      simp only [setPix]
      by_cases hp : px = offX + n ∧ py = offY + y
      · rw [if_pos hp, if_pos (by omega)]
        have hpx : px - offX = n := by omega
        rw [hpx]
      · rw [if_neg hp, ih img px py]
        by_cases hc : offX ≤ px ∧ px < offX + n ∧ py = offY + y ∧ px < W ∧ py < H
        · rw [if_pos hc, if_pos (by omega)]
        · rw [if_neg hc, if_neg (by omega)]
    · rw [if_neg hb, ih img px py]
      by_cases hc : offX ≤ px ∧ px < offX + n ∧ py = offY + y ∧ px < W ∧ py < H
      · rw [if_pos hc, if_pos (by omega)]
      · rw [if_neg hc, if_neg (by omega)]

/-- Closed form of the full placement loop (rows `0..n`). -/
theorem place_rows_eval (data : List Nat) (T offX offY W H : Nat) :
    ∀ (n : Nat) (img : Img) (px py : Nat),
      ((List.range n).foldl
        (fun im y =>
          (List.range T).foldl
            (fun im2 x =>
              if offX + x < W ∧ offY + y < H then
                setPix im2 (offX + x) (offY + y) (rgbAt data T x y)
              else im2) im) img) px py =
      if offX ≤ px ∧ px < offX + T ∧ offY ≤ py ∧ py < offY + n ∧
          px < W ∧ py < H then
        rgbAt data T (px - offX) (py - offY)
      else img px py := by
  intro n
  induction n with
  | zero =>
    intro img px py
    rw [List.range_zero, List.foldl_nil, if_neg (by omega)]
  | succ n ih =>
    intro img px py
    rw [List.range_succ, List.foldl_append, List.foldl_cons, List.foldl_nil,
      place_row_eval data T offX offY W H n T]
    by_cases hr : offX ≤ px ∧ px < offX + T ∧ py = offY + n ∧ px < W ∧ py < H
    · rw [if_pos hr, if_pos (by omega)]
      have hpy : py - offY = n := by omega
      rw [hpy]
    · rw [if_neg hr, ih img px py]
      by_cases hc : offX ≤ px ∧ px < offX + T ∧ offY ≤ py ∧ py < offY + n ∧
          px < W ∧ py < H
      · rw [if_pos hc, if_pos (by omega)]
      · rw [if_neg hc, if_neg (by omega)]

/-- Closed form of `placePure`. -/
theorem placePure_eval (img : Img) (data : List Nat) (offX offY T W H px py : Nat) :
    placePure img data offX offY T W H px py =
      if offX ≤ px ∧ px < offX + T ∧ offY ≤ py ∧ py < offY + T ∧
          px < W ∧ py < H then
        rgbAt data T (px - offX) (py - offY)
      else img px py :=
  place_rows_eval data T offX offY W H T img px py

/-- When every entry's data has the correct length, `ReconstructImage`
succeeds and equals the total fold. -/
theorem ReconstructImage_eq_ok {κ : Type} (W H T : Nat)
    (entries : List (TileEntry κ))
    (hlen : ∀ t ∈ entries, t.data.length = T * T * 3) :
    ReconstructImage W H T entries = .ok (reconPure W H T entries zeroImg) := by
  unfold ReconstructImage reconPure
  generalize zeroImg = img
  induction entries generalizing img with
  | nil => rfl
  | cons t rest ih =>
    have hplace : placeTileData img t.data (t.x * T) (t.y * T) T W H =
        .ok (placePure img t.data (t.x * T) (t.y * T) T W H) := by
      unfold placeTileData
      rw [if_neg (fun h => h (hlen t (List.mem_cons_self t rest)))]
    rw [List.foldlM_cons, hplace, Except_ok_bind, List.foldl_cons]
    exact ih (fun u hu => hlen u (by simp [hu])) _

/-- `t` covers output pixel `(px, py)`: the pixel lies in `t`'s clipped
placement rectangle. -/
def coversAt {κ : Type} (T W H : Nat) (t : TileEntry κ) (px py : Nat) : Prop :=
  t.x * T ≤ px ∧ px < t.x * T + T ∧ t.y * T ≤ py ∧ py < t.y * T + T ∧
    px < W ∧ py < H

/-- Unfolding one step of `reconPure`. -/
theorem reconPure_cons {κ : Type} (W H T : Nat) (t : TileEntry κ)
    (rest : List (TileEntry κ)) (img : Img) :
    reconPure W H T (t :: rest) img =
      reconPure W H T rest (placePure img t.data (t.x * T) (t.y * T) T W H) :=
  rfl

/-- `placePure` at a covered pixel yields the entry's sample. -/
theorem placePure_eval_of_covered {κ : Type} (img : Img) (t : TileEntry κ)
    (T W H px py : Nat) (h : coversAt T W H t px py) :
    placePure img t.data (t.x * T) (t.y * T) T W H px py =
      rgbAt t.data T (px - t.x * T) (py - t.y * T) := by
  unfold coversAt at h
  rw [placePure_eval, if_pos h]

/-- `placePure` at a pixel outside the entry's rectangle is the identity. -/
theorem placePure_eval_of_not_covered {κ : Type} (img : Img) (t : TileEntry κ)
    (T W H px py : Nat) (h : ¬ coversAt T W H t px py) :
    placePure img t.data (t.x * T) (t.y * T) T W H px py = img px py := by
  unfold coversAt at h
  rw [placePure_eval, if_neg h]

/-- A pixel no entry covers keeps its initial value through the fold. -/
theorem reconPure_eval_not_covered {κ : Type} (W H T : Nat)
    (entries : List (TileEntry κ)) (px py : Nat) :
    ∀ (img : Img), (∀ t ∈ entries, ¬ coversAt T W H t px py) →
      reconPure W H T entries img px py = img px py := by
  induction entries with
  | nil => intro img _; rfl
  | cons t rest ih =>
    intro img hnc
    rw [reconPure_cons, ih _ (fun u hu => hnc u (by simp [hu])),
      placePure_eval_of_not_covered img t T W H px py (hnc t (by simp))]

/-- A pixel covered by at least one entry, where every covering entry
places the same value `v`, ends with value `v`. -/
theorem reconPure_eval_covered {κ : Type} (W H T : Nat)
    (entries : List (TileEntry κ)) (px py : Nat) (v : RGB) :
    ∀ (img : Img),
      (∀ t ∈ entries, coversAt T W H t px py →
        rgbAt t.data T (px - t.x * T) (py - t.y * T) = v) →
      (∃ t ∈ entries, coversAt T W H t px py) →
      reconPure W H T entries img px py = v := by
  induction entries with
  | nil => intro img _ hex; simp at hex
  | cons t rest ih =>
    intro img hval hex
    rw [reconPure_cons]
    by_cases hrest : ∃ u ∈ rest, coversAt T W H u px py
    · exact ih _ (fun u hu => hval u (by simp [hu])) hrest
    · have hnotrest : ∀ u ∈ rest, ¬ coversAt T W H u px py := by
        intro u hu hc
        exact hrest ⟨u, hu, hc⟩
      have hct : coversAt T W H t px py := by
        obtain ⟨u, hu, hc⟩ := hex
        rcases List.mem_cons.mp hu with h | h
        · exact h ▸ hc
        · exact absurd hc (hnotrest u h)
      rw [reconPure_eval_not_covered W H T rest px py _ hnotrest,
        placePure_eval_of_covered img t T W H px py hct]
      exact hval t (by simp) hct

/-- `w ≤ tilesAlong w T * T`: the tile grid covers the raster. -/
theorem le_tilesAlong_mul (w T : Nat) (hT : 0 < T) : w ≤ tilesAlong w T * T := by
  unfold tilesAlong
  rcases Nat.eq_zero_or_pos w with hw | hw
  · simp [hw]
  · have h1 : w + T - 1 = (w - 1) + T := by omega
    rw [h1, Nat.add_div_right _ hT, Nat.add_mul, Nat.one_mul]
    have h2 : w - 1 < (w - 1) / T * T + T := Nat.lt_div_mul_add hT
    omega

/-- Every tile produced by `ExtractTiles` has data of length `T*T*3`. -/
theorem ExtractTiles_data_length {κ : Type} (hashFn : List Nat → κ)
    (img : Raster) (T : Nat) :
    ∀ t ∈ ExtractTiles hashFn img T, t.data.length = T * T * 3 := by
  intro t ht
  unfold ExtractTiles at ht
  obtain ⟨ty, _, hmap⟩ := List.mem_flatMap.mp ht
  obtain ⟨tx, _, heq⟩ := List.mem_map.mp hmap
  rw [← heq]
  exact extractTileData_length img _ _ _ _ T

/-- Characterization of membership in `ExtractTiles`. -/
theorem ExtractTiles_mem_iff {κ : Type} (hashFn : List Nat → κ)
    (img : Raster) (T : Nat) (t : TileEntry κ) :
    t ∈ ExtractTiles hashFn img T ↔
      ∃ tx ty, tx < tilesAlong img.width T ∧ ty < tilesAlong img.height T ∧
        t = { x := tx, y := ty,
              id := hashFn (extractTileData img (tx * T) (ty * T)
                (min (tx * T + T) img.width) (min (ty * T + T) img.height) T),
              data := extractTileData img (tx * T) (ty * T)
                (min (tx * T + T) img.width) (min (ty * T + T) img.height) T } := by
  unfold ExtractTiles
  constructor
  · intro ht
    obtain ⟨ty, hty, hmap⟩ := List.mem_flatMap.mp ht
    obtain ⟨tx, htx, heq⟩ := List.mem_map.mp hmap
    exact ⟨tx, ty, List.mem_range.mp htx, List.mem_range.mp hty, heq.symm⟩
  · rintro ⟨tx, ty, htx, hty, rfl⟩
    exact List.mem_flatMap.mpr ⟨ty, List.mem_range.mpr hty,
      List.mem_map.mpr ⟨tx, List.mem_range.mpr htx, rfl⟩⟩

/-- `C1`: for every raster and every positive tile size `T`, extracting
tiles with `ExtractTiles` and reconstructing with `ReconstructImage`
(resolving each tile reference to that tile's own extracted data) succeeds
and reproduces the raster's pixel at every in-bounds coordinate. -/
theorem tiling_reassembly_roundtrip {κ : Type} (hashFn : List Nat → κ)
    (img : Raster) (T : Nat) (hT : 0 < T) :
    ∃ out, ReconstructImage img.width img.height T (ExtractTiles hashFn img T) =
        .ok out ∧
      ∀ x y, x < img.width → y < img.height → out x y = img.pix x y := by
  refine ⟨reconPure img.width img.height T (ExtractTiles hashFn img T) zeroImg,
    ReconstructImage_eq_ok _ _ _ _ (ExtractTiles_data_length hashFn img T), ?_⟩
  intro x y hx hy
  apply reconPure_eval_covered
  · intro t ht hc
    obtain ⟨tx, ty, htx, hty, rfl⟩ := (ExtractTiles_mem_iff hashFn img T t).mp ht
    obtain ⟨hc1, hc2, hc3, hc4, hc5, hc6⟩ := hc
    simp only at hc1 hc2 hc3 hc4 ⊢
    have hlx : x - tx * T < T := by omega
    have hly : y - ty * T < T := by omega
    have hcx : tx * T + (x - tx * T) = x := by omega
    have hcy : ty * T + (y - ty * T) = y := by omega
    have hcond : tx * T + (x - tx * T) < min (tx * T + T) img.width ∧
        ty * T + (y - ty * T) < min (ty * T + T) img.height := by
      rw [hcx, hcy]
      exact ⟨lt_min hc2 hc5, lt_min hc4 hc6⟩
    unfold rgbAt
    have h0 : ((y - ty * T) * T + (x - tx * T)) * 3 =
        ((y - ty * T) * T + (x - tx * T)) * 3 + 0 := by omega
    rw [h0]
    rw [extractTileData_getD img _ _ _ _ T _ _ 0 hlx hly (by omega),
      extractTileData_getD img _ _ _ _ T _ _ 1 hlx hly (by omega),
      extractTileData_getD img _ _ _ _ T _ _ 2 hlx hly (by omega),
      if_pos hcond, hcx, hcy]
    rfl
  · refine ⟨{ x := x / T, y := y / T,
              id := hashFn (extractTileData img (x / T * T) (y / T * T)
                (min (x / T * T + T) img.width)
                (min (y / T * T + T) img.height) T),
              data := extractTileData img (x / T * T) (y / T * T)
                (min (x / T * T + T) img.width)
                (min (y / T * T + T) img.height) T },
      ?_, ?_⟩
    · apply (ExtractTiles_mem_iff hashFn img T _).mpr
      refine ⟨x / T, y / T, ?_, ?_, rfl⟩
      · rw [Nat.div_lt_iff_lt_mul hT]
        exact lt_of_lt_of_le hx (le_tilesAlong_mul img.width T hT)
      · rw [Nat.div_lt_iff_lt_mul hT]
        exact lt_of_lt_of_le hy (le_tilesAlong_mul img.height T hT)
    · refine ⟨Nat.div_mul_le_self x T, Nat.lt_div_mul_add hT,
        Nat.div_mul_le_self y T, Nat.lt_div_mul_add hT, hx, hy⟩

/-- Concrete instance of the tiling round-trip at a 1×1 raster with `T = 1`. -/
theorem tiling_reassembly_roundtrip_witness :
    (0 : Nat) < 1 ∧
      ∃ out, ReconstructImage 1 1 1
          (ExtractTiles (fun d => d) ⟨1, 1, fun _ _ => ⟨7, 8, 9⟩⟩ 1) = .ok out ∧
        ∀ x y, x < 1 → y < 1 → out x y = ⟨7, 8, 9⟩ :=
  ⟨Nat.one_pos,
    tiling_reassembly_roundtrip (fun d => d) ⟨1, 1, fun _ _ => ⟨7, 8, 9⟩⟩ 1
      Nat.one_pos⟩

/-- `C8`: every byte of an extracted tile whose sample coordinates fall
outside the raster's bounds is zero. -/
theorem tile_padding_zero {κ : Type} (hashFn : List Nat → κ) (img : Raster)
    (T : Nat) (t : TileEntry κ) (ht : t ∈ ExtractTiles hashFn img T)
    (x y c : Nat) (hx : x < T) (hy : y < T) (hc : c < 3)
    (hout : img.width ≤ t.x * T + x ∨ img.height ≤ t.y * T + y) :
    t.data.getD ((y * T + x) * 3 + c) 0 = 0 := by
  obtain ⟨tx, ty, htx, hty, rfl⟩ := (ExtractTiles_mem_iff hashFn img T t).mp ht
  simp only at hout ⊢
  rw [extractTileData_getD img _ _ _ _ T _ _ c hx hy hc, if_neg]
  · rcases c with _ | c
    · rfl
    · rcases c with _ | c
      · rfl
      · rcases c with _ | c
        · rfl
        · omega
  · rintro ⟨h1, h2⟩
    rcases hout with h | h
    · exact absurd (lt_of_lt_of_le h1 (min_le_right _ _)) (by omega)
    · exact absurd (lt_of_lt_of_le h2 (min_le_right _ _)) (by omega)

/-- Concrete instance of zero padding: a 1×1 raster tiled with `T = 2`. -/
theorem tile_padding_zero_witness :
    ({ x := 0, y := 0, id := ([5, 6, 7, 0, 0, 0, 0, 0, 0, 0, 0, 0] : List Nat),
        data := [5, 6, 7, 0, 0, 0, 0, 0, 0, 0, 0, 0] } : TileEntry (List Nat)) ∈
      ExtractTiles (fun d => d) ⟨1, 1, fun _ _ => ⟨5, 6, 7⟩⟩ 2 ∧
    ([5, 6, 7, 0, 0, 0, 0, 0, 0, 0, 0, 0] : List Nat).getD
      ((0 * 2 + 1) * 3 + 0) 0 = 0 :=
  ⟨by decide,
    tile_padding_zero (fun d => d) ⟨1, 1, fun _ _ => ⟨5, 6, 7⟩⟩ 2
      { x := 0, y := 0, id := ([5, 6, 7, 0, 0, 0, 0, 0, 0, 0, 0, 0] : List Nat),
        data := [5, 6, 7, 0, 0, 0, 0, 0, 0, 0, 0, 0] }
      (by decide) 1 0 0 (by decide) (by decide) (by decide) (by decide)⟩

/-! ### Delta codec (`delta.go`) -/

/-- The clamp of a pixel difference to the `int8` range `[-128, 127]`
(`ComputeDelta` in `delta.go`). -/
def clampInt8 (d : Int) : Int :=
  if d > 127 then 127 else if d < -128 then -128 else d

/-- The clamp of a reconstructed sample to the byte range `[0, 255]`
(`ApplyDelta` in `delta.go`). -/
def clampByte (v : Int) : Int :=
  if v > 255 then 255 else if v < 0 then 0 else v

/-- The per-sample signed differences of `ComputeDelta`:
`delta[i] = int8(clamp(int(new[i]) - int(base[i])))`. -/
def computeDeltaRaw (newTile baseTile : List Nat) : List Int :=
  List.zipWith (fun (n b : Nat) => clampInt8 ((n : Int) - (b : Int))) newTile baseTile

/-- `ComputeDelta` from `delta.go`. The gzip compression of the signed-byte
sequence (`compressDelta`) is a deterministic lossless byte transform whose
decompression is its exact inverse (`decompressDelta`); the codec pair is
modelled as the identity on the signed-byte sequence, so the delta value is
the raw `int8` sequence itself. -/
def ComputeDelta (newTile baseTile : List Nat) (tileSize : Nat) :
    Except String (List Int) :=
  if newTile.length ≠ baseTile.length then .error "tile sizes do not match"
  else if newTile.length ≠ tileSize * tileSize * 3 then
    .error "invalid tile size"
  else .ok (computeDeltaRaw newTile baseTile)

/-- `ApplyDelta` from `delta.go`: after the base-size and
decompressed-delta-size checks, reconstruct
`result[i] = byte(clamp(int(base[i]) + int(delta[i]), 0, 255))`. -/
def ApplyDelta (baseTile : List Nat) (delta : List Int) (tileSize : Nat) :
    Except String (List Nat) :=
  if baseTile.length ≠ tileSize * tileSize * 3 then
    .error "invalid base tile size"
  else if delta.length ≠ tileSize * tileSize * 3 then
    .error "delta size mismatch"
  else .ok (List.zipWith (fun (b : Nat) (d : Int) => (clampByte ((b : Int) + d)).toNat)
    baseTile delta)

theorem computeDeltaRaw_length (newTile baseTile : List Nat) :
    (computeDeltaRaw newTile baseTile).length =
      min newTile.length baseTile.length := by
  unfold computeDeltaRaw
  exact List.length_zipWith _ _ _

/-- `C2`: when every per-sample difference fits in `[-127, 127]`, applying
the encoded delta to the base reproduces the new tile byte-for-byte. -/
theorem delta_roundtrip_small (T : Nat) (newTile baseTile : List Nat)
    (hn : newTile.length = T * T * 3) (hb : baseTile.length = T * T * 3)
    (hbyteN : ∀ v ∈ newTile, v ≤ 255)
    (hsmall : ∀ i, i < T * T * 3 →
      ((newTile.getD i 0 : Int) - (baseTile.getD i 0 : Int)).natAbs ≤ 127) :
    ∃ d, ComputeDelta newTile baseTile T = .ok d ∧
      ApplyDelta baseTile d T = .ok newTile := by
  refine ⟨computeDeltaRaw newTile baseTile, ?_, ?_⟩
  · unfold ComputeDelta
    rw [if_neg (by omega), if_neg (by omega)]
  · have hdl : (computeDeltaRaw newTile baseTile).length = T * T * 3 := by
      rw [computeDeltaRaw_length]
      omega
    unfold ApplyDelta
    rw [if_neg (by omega), if_neg (by omega)]
    congr 1
    apply List.ext_getElem
    · rw [List.length_zipWith]
      omega
    · intro i hi1 hi2
      have hiT : i < T * T * 3 := by
        rw [List.length_zipWith] at hi1
        omega
      rw [List.getElem_zipWith]
      unfold computeDeltaRaw
      rw [List.getElem_zipWith]
      have hmem : newTile[i] ∈ newTile := List.getElem_mem _
      have h255 : newTile[i] ≤ 255 := hbyteN _ hmem
      have hs := hsmall i hiT
      rw [List.getD_eq_getElem newTile 0 (by omega),
        List.getD_eq_getElem baseTile 0 (by omega)] at hs
      unfold clampInt8 clampByte
      split_ifs <;> omega

/-- Concrete instance of the small-difference delta round-trip (`T = 1`). -/
theorem delta_roundtrip_small_witness :
    (∀ v ∈ ([10, 20, 30] : List Nat), v ≤ 255) ∧
    (∀ i, i < 1 * 1 * 3 →
      ((([10, 20, 30] : List Nat).getD i 0 : Int) -
        (([5, 25, 130] : List Nat).getD i 0 : Int)).natAbs ≤ 127) ∧
    ∃ d, ComputeDelta [10, 20, 30] [5, 25, 130] 1 = .ok d ∧
      ApplyDelta [5, 25, 130] d 1 = .ok [10, 20, 30] :=
  ⟨by decide, by decide,
    delta_roundtrip_small 1 [10, 20, 30] [5, 25, 130] (by decide) (by decide)
      (by decide) (by decide)⟩

/-- `C3`: the reconstructed sample is always a byte (`≤ 255`; it is a `Nat`,
hence `≥ 0`), and its deviation from the new tile's sample is at most
`|new[i] - base[i]| - 127` in truncated `Nat` subtraction — that is,
`max 0 (|new[i] - base[i]| - 127)`. -/
theorem delta_saturation_deviation (T : Nat) (newTile baseTile : List Nat)
    (hn : newTile.length = T * T * 3) (hb : baseTile.length = T * T * 3)
    (hbyteN : ∀ v ∈ newTile, v ≤ 255) (hbyteB : ∀ v ∈ baseTile, v ≤ 255)
    (i : Nat) (hi : i < T * T * 3) :
    ∃ d res, ComputeDelta newTile baseTile T = .ok d ∧
      ApplyDelta baseTile d T = .ok res ∧
      res.getD i 0 ≤ 255 ∧
      ((res.getD i 0 : Int) - (newTile.getD i 0 : Int)).natAbs ≤
        ((newTile.getD i 0 : Int) - (baseTile.getD i 0 : Int)).natAbs - 127 := by
  have hdl : (computeDeltaRaw newTile baseTile).length = T * T * 3 := by
    rw [computeDeltaRaw_length]
    omega
  refine ⟨computeDeltaRaw newTile baseTile,
    List.zipWith (fun (b : Nat) (d : Int) => (clampByte ((b : Int) + d)).toNat)
      baseTile (computeDeltaRaw newTile baseTile), ?_, ?_, ?_, ?_⟩
  · unfold ComputeDelta
    rw [if_neg (by omega), if_neg (by omega)]
  · unfold ApplyDelta
    rw [if_neg (by omega), if_neg (by omega)]
  · have hlen : (List.zipWith (fun (b : Nat) (d : Int) => (clampByte ((b : Int) + d)).toNat)
        baseTile (computeDeltaRaw newTile baseTile)).length = T * T * 3 := by
      rw [List.length_zipWith]
      omega
    rw [List.getD_eq_getElem _ 0 (by omega), List.getElem_zipWith]
    unfold clampByte
    split_ifs <;> omega
  · have hlen : (List.zipWith (fun (b : Nat) (d : Int) => (clampByte ((b : Int) + d)).toNat)
        baseTile (computeDeltaRaw newTile baseTile)).length = T * T * 3 := by
      rw [List.length_zipWith]
      omega
    rw [List.getD_eq_getElem _ 0 (by omega), List.getElem_zipWith,
      List.getD_eq_getElem newTile 0 (by omega),
      List.getD_eq_getElem baseTile 0 (by omega)]
    unfold computeDeltaRaw
    rw [List.getElem_zipWith]
    have hmemN : newTile[i] ∈ newTile := List.getElem_mem _
    have hmemB : baseTile[i] ∈ baseTile := List.getElem_mem _
    have h255N : newTile[i] ≤ 255 := hbyteN _ hmemN
    have h255B : baseTile[i] ≤ 255 := hbyteB _ hmemB
    unfold clampInt8 clampByte
    split_ifs <;> omega

/-- Concrete instance of the saturation bound at a clamped difference. -/
theorem delta_saturation_deviation_witness :
    (∀ v ∈ ([255, 0, 10] : List Nat), v ≤ 255) ∧
    ∃ d res, ComputeDelta [255, 0, 10] [0, 255, 10] 1 = .ok d ∧
      ApplyDelta [0, 255, 10] d 1 = .ok res ∧
      res.getD 0 0 ≤ 255 ∧
      ((res.getD 0 0 : Int) - (([255, 0, 10] : List Nat).getD 0 0 : Int)).natAbs ≤
        ((([255, 0, 10] : List Nat).getD 0 0 : Int) -
          (([0, 255, 10] : List Nat).getD 0 0 : Int)).natAbs - 127 :=
  ⟨by decide,
    delta_saturation_deviation 1 [255, 0, 10] [0, 255, 10] (by decide)
      (by decide) (by decide) (by decide) 0 (by decide)⟩

/-! ### Perceptual pixel distance (`delta.go`) -/

/-- The sum of squared per-byte differences accumulated by
`ComputePerceptualDistance`, in exact arithmetic. -/
def sumSquaredDiff (tile1 tile2 : List Nat) : ℚ :=
  (List.zipWith (fun (a b : Nat) => ((a : ℚ) - (b : ℚ)) * ((a : ℚ) - (b : ℚ)))
    tile1 tile2).sum

/-- `ComputePerceptualDistance` from `delta.go`:
`sqrt(sumSquaredDiff / (numPixels * 255*255*3))` after the two length
checks. The source computes in `float64`; the model uses exact real
arithmetic. -/
noncomputable def ComputePerceptualDistance (tile1 tile2 : List Nat)
    (tileSize : Nat) : Except String ℝ :=
  if tile1.length ≠ tile2.length then .error "tile sizes do not match"
  else if tile1.length ≠ tileSize * tileSize * 3 then
    .error "invalid tile size"
  else .ok (Real.sqrt ((sumSquaredDiff tile1 tile2 : ℝ) /
    ((tileSize * tileSize : ℝ) * (255 * 255 * 3))))

theorem sumSquaredDiff_nonneg : ∀ (t1 t2 : List Nat), 0 ≤ sumSquaredDiff t1 t2 := by
  intro t1
  induction t1 with
  | nil => intro t2; simp [sumSquaredDiff]
  | cons a t ih =>
    intro t2
    cases t2 with
    | nil => simp [sumSquaredDiff]
    | cons b s =>
      have h1 : 0 ≤ ((a : ℚ) - (b : ℚ)) * ((a : ℚ) - (b : ℚ)) :=
        mul_self_nonneg _
      have h2 : 0 ≤ sumSquaredDiff t s := ih s
      unfold sumSquaredDiff at *
      rw [List.zipWith_cons_cons, List.sum_cons]
      exact add_nonneg h1 h2

theorem sumSquaredDiff_symm : ∀ (t1 t2 : List Nat),
    sumSquaredDiff t1 t2 = sumSquaredDiff t2 t1 := by
  intro t1
  induction t1 with
  | nil => intro t2; cases t2 <;> simp [sumSquaredDiff]
  | cons a t ih =>
    intro t2
    cases t2 with
    | nil => simp [sumSquaredDiff]
    | cons b s =>
      unfold sumSquaredDiff at *
      rw [List.zipWith_cons_cons, List.zipWith_cons_cons, List.sum_cons,
        List.sum_cons, ih s]
      have hh : ((a : ℚ) - (b : ℚ)) * ((a : ℚ) - (b : ℚ)) =
          ((b : ℚ) - (a : ℚ)) * ((b : ℚ) - (a : ℚ)) := by ring
      rw [hh]

theorem sumSquaredDiff_eq_zero_iff : ∀ (t1 t2 : List Nat),
    t1.length = t2.length → (sumSquaredDiff t1 t2 = 0 ↔ t1 = t2) := by
  intro t1
  induction t1 with
  | nil =>
    intro t2 hlen
    cases t2 with
    | nil => simp [sumSquaredDiff]
    | cons b s => simp at hlen
  | cons a t ih =>
    intro t2 hlen
    cases t2 with
    | nil => simp at hlen
    | cons b s =>
      unfold sumSquaredDiff at *
      rw [List.zipWith_cons_cons, List.sum_cons]
      have h1 : 0 ≤ ((a : ℚ) - (b : ℚ)) * ((a : ℚ) - (b : ℚ)) :=
        mul_self_nonneg _
      have h2 : 0 ≤ sumSquaredDiff t s := sumSquaredDiff_nonneg t s
      unfold sumSquaredDiff at h2
      constructor
      · intro hz
        have hz1 : ((a : ℚ) - (b : ℚ)) * ((a : ℚ) - (b : ℚ)) = 0 ∧
            (List.zipWith (fun (a b : Nat) => ((a : ℚ) - (b : ℚ)) * ((a : ℚ) - (b : ℚ)))
              t s).sum = 0 := by
          constructor <;> nlinarith
        have hab : a = b := by
          have := mul_self_eq_zero.mp hz1.1
          have := sub_eq_zero.mp this
          exact_mod_cast this
        have hts : t = s := (ih s (by simpa using hlen)).mp hz1.2
        rw [hab, hts]
      · intro he
        obtain ⟨rfl, rfl⟩ : a = b ∧ t = s := by
          injection he with h1 h2
          exact ⟨h1, h2⟩
        rw [sub_self, mul_zero, zero_add]
        exact (ih t (by rfl)).mpr rfl

/-- `C10`: the perceptual pixel distance is symmetric, and it is zero
exactly when the two tiles agree byte-for-byte. -/
theorem perceptual_distance_symm_zero (tile1 tile2 : List Nat) (T : Nat)
    (h1 : tile1.length = T * T * 3) (h2 : tile2.length = T * T * 3) :
    ComputePerceptualDistance tile1 tile2 T =
      ComputePerceptualDistance tile2 tile1 T ∧
    (ComputePerceptualDistance tile1 tile2 T = .ok 0 ↔ tile1 = tile2) := by
  have h12 : ComputePerceptualDistance tile1 tile2 T =
      .ok (Real.sqrt ((sumSquaredDiff tile1 tile2 : ℝ) /
        ((T * T : ℝ) * (255 * 255 * 3)))) := by
    unfold ComputePerceptualDistance
    rw [if_neg (by omega), if_neg (by omega)]
  have h21 : ComputePerceptualDistance tile2 tile1 T =
      .ok (Real.sqrt ((sumSquaredDiff tile2 tile1 : ℝ) /
        ((T * T : ℝ) * (255 * 255 * 3)))) := by
    unfold ComputePerceptualDistance
    rw [if_neg (by omega), if_neg (by omega)]
  constructor
  · rw [h12, h21, sumSquaredDiff_symm]
  · rw [h12]
    have hS : (0 : ℝ) ≤ (sumSquaredDiff tile1 tile2 : ℝ) := by
      exact_mod_cast sumSquaredDiff_nonneg tile1 tile2
    constructor
    · intro hok
      have hsqrt : Real.sqrt ((sumSquaredDiff tile1 tile2 : ℝ) /
          ((T * T : ℝ) * (255 * 255 * 3))) = 0 := by
        injection hok
      rcases Nat.eq_zero_or_pos T with hT | hT
      · subst hT
        have e1 : tile1 = [] := List.eq_nil_of_length_eq_zero (by omega)
        have e2 : tile2 = [] := List.eq_nil_of_length_eq_zero (by omega)
        rw [e1, e2]
      · have hD : (0 : ℝ) < (T * T : ℝ) * (255 * 255 * 3) := by
          have : (0 : ℝ) < (T : ℝ) := by exact_mod_cast hT
          positivity
        have hle := Real.sqrt_eq_zero'.mp hsqrt
        have hdiv : (sumSquaredDiff tile1 tile2 : ℝ) /
            ((T * T : ℝ) * (255 * 255 * 3)) = 0 := by
          have hge : 0 ≤ (sumSquaredDiff tile1 tile2 : ℝ) /
              ((T * T : ℝ) * (255 * 255 * 3)) := div_nonneg hS (le_of_lt hD)
          linarith
        have hSz : (sumSquaredDiff tile1 tile2 : ℝ) = 0 := by
          rcases div_eq_zero_iff.mp hdiv with h | h
          · exact h
          · exact absurd h (ne_of_gt hD)
        have : sumSquaredDiff tile1 tile2 = 0 := by exact_mod_cast hSz
        exact (sumSquaredDiff_eq_zero_iff tile1 tile2 (by omega)).mp this
    · intro he
      have : sumSquaredDiff tile1 tile2 = 0 :=
        (sumSquaredDiff_eq_zero_iff tile1 tile2 (by omega)).mpr he
      rw [this]
      norm_num

/-- Concrete instance of perceptual-distance symmetry and identity
(`T = 1`, equal tiles). -/
theorem perceptual_distance_symm_zero_witness :
    ([3, 4, 5] : List Nat).length = 1 * 1 * 3 ∧
    (ComputePerceptualDistance [3, 4, 5] [3, 4, 5] 1 =
        ComputePerceptualDistance [3, 4, 5] [3, 4, 5] 1 ∧
      (ComputePerceptualDistance [3, 4, 5] [3, 4, 5] 1 = .ok 0 ↔
        ([3, 4, 5] : List Nat) = [3, 4, 5])) :=
  ⟨by decide,
    perceptual_distance_symm_zero [3, 4, 5] [3, 4, 5] 1 (by decide) (by decide)⟩

/-! ### Pebble-backed store (`storage.go`, `store.go`)

The Pebble persistence layer is modelled as two prefix-scoped association
collections (`tiles:` and `images:`), with `Get` as first-match lookup and
batch commit applying the staged writes: fresh-keyed tile writes are
appended, the manifest write overwrites any existing entry for the image ID.
The external PNG tile compressor (`compressTileData`) is an arbitrary
fallible function parameter; the SHA-256-derived tile ID is the arbitrary
hash function threaded through `ExtractTiles`. -/

/-- Association-list lookup: the model of a point `Get` within one
prefix-scoped collection. -/
def alookup {K V : Type} [DecidableEq K] (k : K) : List (K × V) → Option V
  | [] => none
  | (k', v) :: r => if k' = k then some v else alookup k r

/-- Replace-or-append put: the model of a point `Set` (overwrite) within one
prefix-scoped collection. -/
def aput {K V : Type} [DecidableEq K] (l : List (K × V)) (k : K) (v : V) :
    List (K × V) :=
  match l with
  | [] => [(k, v)]
  | (k', v') :: r => if k' = k then (k, v) :: r else (k', v') :: aput r k v

/-- `StorageType` from `store.go` (`Unique`, `Duplicate`; the delta-enabled
Bolt implementation additionally uses `Delta`). -/
inductive StorageType where
  | Unique
  | Duplicate
  | Delta
deriving DecidableEq, Repr

/-- `TileRef` from `store.go`: grid position, tile ID and storage
provenance. -/
structure TileRef (H : Type) where
  x : Nat
  y : Nat
  tileID : H
  storageType : StorageType
deriving DecidableEq, Repr

/-- `StoredImage` from `store.go` (the per-image manifest). The Go composite
literal built by `PebbleImageStore.StoreImage` sets `ID`, `Width`, `Height`,
`TileRefs` and an empty `Metadata` map; the `OriginalBytes int64` field is
never assigned, so it keeps Go's zero value `0`. `Metadata` (always empty in
the write path) is omitted from the model. -/
structure StoredImage (H : Type) where
  id : String
  width : Nat
  height : Nat
  tileRefs : List (TileRef H)
  originalBytes : Int
deriving DecidableEq, Repr

/-- The persistent state of a `PebbleImageStore`: the `tiles:` and `images:`
collections. -/
structure PebbleState (H : Type) where
  tiles : List (H × List Nat)
  images : List (String × StoredImage H)
deriving DecidableEq, Repr

/-- The accumulator of the per-tile loop of `PebbleImageStore.StoreImage`:
the batch's staged tile writes, the `processedTiles` set (as a list), and
the manifest's tile references filled so far. -/
structure BatchAcc (H : Type) where
  staged : List (H × List Nat)
  processed : List H
  refs : List (TileRef H)
deriving DecidableEq, Repr

/-- The per-tile loop of `PebbleImageStore.StoreImage` (`storage.go`): for
each extracted tile, (a) if `s.db.Get(tileKey)` hits, reference it as
`Duplicate`; (b) else if the tile ID was already processed in this batch,
reference it as `Duplicate`; (c) else compress the tile data (failure aborts
the call), stage the write in the batch, record the ID as processed and
reference it as `Unique`. Reads go against the committed store `db`, never
against the batch. -/
def processTiles {H : Type} [DecidableEq H] (db : List (H × List Nat))
    (compress : List Nat → Except String (List Nat)) :
    List (TileEntry H) → BatchAcc H → Except String (BatchAcc H)
  | [], acc => .ok acc
  | t :: rest, acc =>
    if (alookup t.id db).isSome then
      processTiles db compress rest
        { acc with refs := acc.refs ++ [⟨t.x, t.y, t.id, .Duplicate⟩] }
    else if t.id ∈ acc.processed then
      processTiles db compress rest
        { acc with refs := acc.refs ++ [⟨t.x, t.y, t.id, .Duplicate⟩] }
    else
      match compress t.data with
      | .error e => .error e
      | .ok cd =>
        processTiles db compress rest
          { staged := acc.staged ++ [(t.id, cd)],
            processed := acc.processed ++ [t.id],
            refs := acc.refs ++ [⟨t.x, t.y, t.id, .Unique⟩] }

/-- The manifest value staged by `PebbleImageStore.StoreImage`:
`OriginalBytes` keeps Go's zero value because the source never assigns it. -/
def buildManifest {H : Type} (id : String) (img : Raster)
    (refs : List (TileRef H)) : StoredImage H :=
  { id := id, width := img.width, height := img.height, tileRefs := refs,
    originalBytes := 0 }

/-- `PebbleImageStore.StoreImage` after the decode step: extract tiles, run
the per-tile loop staging writes into one batch, stage the manifest, then
commit the batch once (`commitOk` models whether `batch.Commit` succeeds).
Every error path returns the store unchanged, since nothing was written
outside the batch. -/
def StoreRaster {H : Type} [DecidableEq H] (hashFn : List Nat → H)
    (compress : List Nat → Except String (List Nat)) (T : Nat)
    (st : PebbleState H) (id : String) (img : Raster) (commitOk : Bool) :
    PebbleState H × Option String :=
  match processTiles st.tiles compress (ExtractTiles hashFn img T)
      ⟨[], [], []⟩ with
  | .error e => (st, some e)
  | .ok acc =>
    if commitOk then
      ({ tiles := st.tiles ++ acc.staged,
         images := aput st.images id (buildManifest id img acc.refs) }, none)
    else (st, some "failed to commit batch")

/-- `PebbleImageStore.StoreImage` (`storage.go`): decode the encoded bytes
via the external codec (an arbitrary partial function), then run the store
core. -/
def StoreImage {H : Type} [DecidableEq H] (hashFn : List Nat → H)
    (compress : List Nat → Except String (List Nat))
    (decode : List Nat → Option Raster) (T : Nat) (st : PebbleState H)
    (id : String) (imageData : List Nat) (commitOk : Bool) :
    PebbleState H × Option String :=
  match decode imageData with
  | none => (st, some "failed to decode image")
  | some img => StoreRaster hashFn compress T st id img commitOk

/-- The integer fields of `StorageStats` (`store.go`). The derived `float64`
fields (`DirectPercent`, `DeduplicatedPercent`, the compression ratio) and
`OriginalBytes` are not needed by the claims and are omitted. -/
structure StorageStats where
  totalImages : Nat
  totalTiles : Nat
  uniqueTiles : Nat
  directTiles : Nat
  deduplicatedTiles : Nat
  storageBytes : Nat
deriving DecidableEq, Repr

/-- `PebbleImageStore.GetStorageStats` (`storage.go`): iterate the `images:`
prefix counting manifests and their tile references by storage type, then
iterate the `tiles:` prefix counting unique tiles and summing stored value
sizes. -/
def GetStorageStats {H : Type} (st : PebbleState H) : StorageStats :=
  { totalImages := st.images.length,
    totalTiles := (st.images.map (fun p => p.2.tileRefs.length)).sum,
    uniqueTiles := st.tiles.length,
    directTiles := (st.images.map (fun p =>
      (p.2.tileRefs.filter (fun r => r.storageType == .Unique)).length)).sum,
    deduplicatedTiles := (st.images.map (fun p =>
      (p.2.tileRefs.filter (fun r => r.storageType == .Duplicate)).length)).sum,
    storageBytes := (st.tiles.map (fun p => p.2.length)).sum }

section AssocLemmas

variable {K V : Type} [DecidableEq K]

theorem alookup_append_of_isSome (k : K) (l1 l2 : List (K × V))
    (h : (alookup k l1).isSome) : alookup k (l1 ++ l2) = alookup k l1 := by
  induction l1 with
  | nil => simp [alookup] at h
  | cons p r ih =>
    obtain ⟨k', v⟩ := p
    by_cases hk : k' = k
    · simp [alookup, hk]
    · simp only [alookup, if_neg hk] at h ⊢
      exact ih h

theorem alookup_append_of_isNone (k : K) (l1 l2 : List (K × V))
    (h : alookup k l1 = none) : alookup k (l1 ++ l2) = alookup k l2 := by
  induction l1 with
  | nil => simp [alookup]
  | cons p r ih =>
    obtain ⟨k', v⟩ := p
    by_cases hk : k' = k
    · simp [alookup, hk] at h
    · simp only [alookup, if_neg hk] at h ⊢
      exact ih h

theorem alookup_append_isSome_iff (k : K) (l1 l2 : List (K × V)) :
    (alookup k (l1 ++ l2)).isSome ↔
      (alookup k l1).isSome ∨ (alookup k l2).isSome := by
  constructor
  · intro h
    cases hl : alookup k l1 with
    | some v =>
      left
      rfl
    | none =>
      right
      rw [alookup_append_of_isNone k l1 l2 hl] at h
      exact h
  · intro h
    rcases h with h | h
    · rw [alookup_append_of_isSome k l1 l2 h]
      exact h
    · cases hl : alookup k l1 with
      | some v =>
        rw [alookup_append_of_isSome k l1 l2 (by rw [hl]; rfl), hl]
        rfl
      | none =>
        rw [alookup_append_of_isNone k l1 l2 hl]
        exact h

theorem alookup_append_self (k : K) (v : V) (l : List (K × V)) :
    (alookup k (l ++ [(k, v)])).isSome := by
  cases hl : alookup k l with
  | some w => rw [alookup_append_of_isSome k l _ (by rw [hl]; rfl), hl]; rfl
  | none => rw [alookup_append_of_isNone k l _ hl]; simp [alookup]

theorem aput_alookup_self (l : List (K × V)) (k : K) (v : V) :
    alookup k (aput l k v) = some v := by
  induction l with
  | nil => simp [aput, alookup]
  | cons p r ih =>
    obtain ⟨k', v'⟩ := p
    by_cases hk : k' = k
    · simp [aput, hk, alookup]
    · simp only [aput, if_neg hk, alookup]
      exact ih

theorem alookup_of_mem_nodup (l : List (K × V)) (k : K) (v : V)
    (hmem : (k, v) ∈ l) (hnd : (l.map Prod.fst).Nodup) :
    alookup k l = some v := by
  induction l with
  | nil => simp at hmem
  | cons p r ih =>
    obtain ⟨k', v'⟩ := p
    rw [List.map_cons, List.nodup_cons] at hnd
    rcases List.mem_cons.mp hmem with h | h
    · obtain ⟨rfl, rfl⟩ : k' = k ∧ v' = v := by
        injection h.symm with h1 h2
        exact ⟨h1, h2⟩
      simp [alookup]
    · have hk : k' ≠ k := by
        intro he
        exact hnd.1 (he ▸ List.mem_map.mpr ⟨(k, v), h, rfl⟩)
      simp only [alookup, if_neg hk]
      exact ih h hnd.2

end AssocLemmas

/-- Successful runs of the per-tile loop only append to the batch. -/
theorem processTiles_staged_extend {H : Type} [DecidableEq H]
    (db : List (H × List Nat)) (cmp : List Nat → Except String (List Nat)) :
    ∀ (ts : List (TileEntry H)) (acc acc' : BatchAcc H),
      processTiles db cmp ts acc = .ok acc' →
      ∃ ext, acc'.staged = acc.staged ++ ext := by
  intro ts
  induction ts with
  | nil =>
    intro acc acc' h
    simp only [processTiles] at h
    injection h with h
    exact ⟨[], by rw [← h, List.append_nil]⟩
  | cons t rest ih =>
    intro acc acc' h
    simp only [processTiles] at h
    by_cases h1 : (alookup t.id db).isSome
    · rw [if_pos h1] at h
      exact ih { acc with
        refs := acc.refs ++ [⟨t.x, t.y, t.id, .Duplicate⟩] } acc' h
    · rw [if_neg h1] at h
      by_cases h2 : t.id ∈ acc.processed
      · rw [if_pos h2] at h
        exact ih { acc with
          refs := acc.refs ++ [⟨t.x, t.y, t.id, .Duplicate⟩] } acc' h
      · rw [if_neg h2] at h
        cases hcd : cmp t.data with
        | error e => rw [hcd] at h; exact absurd h (by simp)
        | ok cd =>
          rw [hcd] at h
          obtain ⟨ext, hext⟩ := ih _ _ h
          exact ⟨(t.id, cd) :: ext, by
            rw [hext]
            simp⟩

/-- Every tile fed to a successful per-tile loop ends up either already in
the committed store or staged in the batch. -/
theorem processTiles_covers {H : Type} [DecidableEq H]
    (db : List (H × List Nat)) (cmp : List Nat → Except String (List Nat)) :
    ∀ (ts : List (TileEntry H)) (acc acc' : BatchAcc H),
      processTiles db cmp ts acc = .ok acc' →
      (∀ k ∈ acc.processed, (alookup k acc.staged).isSome) →
      ∀ t ∈ ts, (alookup t.id db).isSome ∨ (alookup t.id acc'.staged).isSome := by
  intro ts
  induction ts with
  | nil => intro acc acc' _ _ t ht; simp at ht
  | cons t rest ih =>
    intro acc acc' h hinv u hu
    simp only [processTiles] at h
    by_cases h1 : (alookup t.id db).isSome
    · rw [if_pos h1] at h
      rcases List.mem_cons.mp hu with rfl | hu'
      · exact Or.inl h1
      · exact ih { acc with
          refs := acc.refs ++ [⟨t.x, t.y, t.id, .Duplicate⟩] } acc' h hinv u hu'
    · rw [if_neg h1] at h
      by_cases h2 : t.id ∈ acc.processed
      · rw [if_pos h2] at h
        rcases List.mem_cons.mp hu with rfl | hu'
        · obtain ⟨ext, hext⟩ := processTiles_staged_extend db cmp rest _ _ h
          right
          rw [hext]
          have hst : (alookup u.id acc.staged).isSome := hinv u.id h2
          rw [alookup_append_of_isSome _ _ _ hst]
          exact hst
        · exact ih { acc with
            refs := acc.refs ++ [⟨t.x, t.y, t.id, .Duplicate⟩] } acc' h hinv
            u hu'
      · rw [if_neg h2] at h
        cases hcd : cmp t.data with
        | error e => rw [hcd] at h; exact absurd h (by simp)
        | ok cd =>
          rw [hcd] at h
          have hinv2 : ∀ k ∈ acc.processed ++ [t.id],
              (alookup k (acc.staged ++ [(t.id, cd)])).isSome := by
            intro k hk
            rcases List.mem_append.mp hk with hk | hk
            · have := hinv k hk
              rw [alookup_append_of_isSome _ _ _ this]
              exact this
            · have hkeq : k = t.id := by simpa using hk
              rw [hkeq]
              exact alookup_append_self _ _ _
          rcases List.mem_cons.mp hu with rfl | hu'
          · obtain ⟨ext, hext⟩ := processTiles_staged_extend db cmp rest _ _ h
            right
            rw [hext]
            have hst : (alookup u.id (acc.staged ++ [(u.id, cd)])).isSome :=
              alookup_append_self _ _ _
            simp only at hst
            rw [alookup_append_of_isSome _ _ _ hst]
            exact hst
          · exact ih _ _ h hinv2 u hu'

/-- A per-tile loop over tiles that all hit the committed store stages
nothing and marks every reference `Duplicate`. -/
theorem processTiles_all_dup {H : Type} [DecidableEq H]
    (db : List (H × List Nat)) (cmp : List Nat → Except String (List Nat)) :
    ∀ (ts : List (TileEntry H)) (acc : BatchAcc H),
      (∀ t ∈ ts, (alookup t.id db).isSome) →
      processTiles db cmp ts acc = .ok
        { staged := acc.staged, processed := acc.processed,
          refs := acc.refs ++
            ts.map (fun t => ⟨t.x, t.y, t.id, .Duplicate⟩) } := by
  intro ts
  induction ts with
  | nil => intro acc _; simp [processTiles]
  | cons t rest ih =>
    intro acc hall
    simp only [processTiles]
    rw [if_pos (hall t (by simp))]
    have := ih { acc with refs := acc.refs ++ [⟨t.x, t.y, t.id, .Duplicate⟩] }
      (fun u hu => hall u (by simp [hu]))
    rw [this]
    simp

/-- Key discipline of the per-tile loop: the staged keys are exactly the
processed IDs, they are pairwise distinct, and none of them is present in
the committed store. -/
theorem processTiles_invariant {H : Type} [DecidableEq H]
    (db : List (H × List Nat)) (cmp : List Nat → Except String (List Nat)) :
    ∀ (ts : List (TileEntry H)) (acc acc' : BatchAcc H),
      processTiles db cmp ts acc = .ok acc' →
      acc.staged.map Prod.fst = acc.processed →
      acc.processed.Nodup →
      (∀ k ∈ acc.processed, alookup k db = none) →
      acc'.staged.map Prod.fst = acc'.processed ∧
      acc'.processed.Nodup ∧
      (∀ k ∈ acc'.processed, alookup k db = none) := by
  intro ts
  induction ts with
  | nil =>
    intro acc acc' h hkeys hnd hfresh
    simp only [processTiles] at h
    injection h with h
    rw [← h]
    exact ⟨hkeys, hnd, hfresh⟩
  | cons t rest ih =>
    intro acc acc' h hkeys hnd hfresh
    simp only [processTiles] at h
    by_cases h1 : (alookup t.id db).isSome
    · rw [if_pos h1] at h
      exact ih { acc with
        refs := acc.refs ++ [⟨t.x, t.y, t.id, .Duplicate⟩] } acc' h hkeys hnd
        hfresh
    · rw [if_neg h1] at h
      by_cases h2 : t.id ∈ acc.processed
      · rw [if_pos h2] at h
        exact ih { acc with
          refs := acc.refs ++ [⟨t.x, t.y, t.id, .Duplicate⟩] } acc' h hkeys
          hnd hfresh
      · rw [if_neg h2] at h
        cases hcd : cmp t.data with
        | error e => rw [hcd] at h; exact absurd h (by simp)
        | ok cd =>
          rw [hcd] at h
          refine ih _ _ h ?_ ?_ ?_
          · simp [hkeys]
          · rw [List.nodup_append]
            refine ⟨hnd, by simp, ?_⟩
            intro a ha hb
            have : a = t.id := by simpa using hb
            exact h2 (this ▸ ha)
          · intro k hk
            rcases List.mem_append.mp hk with hk | hk
            · exact hfresh k hk
            · have : k = t.id := by simpa using hk
              rw [this]
              exact Option.not_isSome_iff_eq_none.mp h1

/-- `C4`: storing the same decoded raster twice (under image IDs `a` then
`b`, both commits succeeding) leaves the `UniqueTiles` statistic unchanged
after the second store, and every tile reference in the second image's
manifest is marked `Duplicate`. -/
theorem store_twice_all_duplicate {H : Type} [DecidableEq H]
    (hashFn : List Nat → H) (compress : List Nat → Except String (List Nat))
    (T : Nat) (st0 st1 st2 : PebbleState H) (img : Raster) (a b : String)
    (c1 c2 : Bool)
    (h1 : StoreRaster hashFn compress T st0 a img c1 = (st1, none))
    (h2 : StoreRaster hashFn compress T st1 b img c2 = (st2, none)) :
    (GetStorageStats st2).uniqueTiles = (GetStorageStats st1).uniqueTiles ∧
    ∃ m, alookup b st2.images = some m ∧
      ∀ r ∈ m.tileRefs, r.storageType = .Duplicate := by
  unfold StoreRaster at h1
  cases hp1 : processTiles st0.tiles compress (ExtractTiles hashFn img T)
      ⟨[], [], []⟩ with
  | error e => rw [hp1] at h1; exact absurd h1 (by simp)
  | ok acc1 =>
    rw [hp1] at h1
    cases c1 with
    | false => exact absurd h1 (by simp)
    | true =>
      simp only [if_pos] at h1
      have hst1 : st1 = { tiles := st0.tiles ++ acc1.staged,
                          images := aput st0.images a
                            (buildManifest a img acc1.refs) } := by
        injection h1 with hA hB
        exact hA.symm
      have hcov := processTiles_covers st0.tiles compress
        (ExtractTiles hashFn img T) ⟨[], [], []⟩ acc1 hp1 (by intro k hk; simp at hk)
      have hall : ∀ t ∈ ExtractTiles hashFn img T,
          (alookup t.id st1.tiles).isSome := by
        intro t ht
        rw [hst1]
        exact (alookup_append_isSome_iff t.id st0.tiles acc1.staged).mpr
          (hcov t ht)
      have hdup := processTiles_all_dup st1.tiles compress
        (ExtractTiles hashFn img T) ⟨[], [], []⟩ hall
      unfold StoreRaster at h2
      rw [hdup] at h2
      cases c2 with
      | false => exact absurd h2 (by simp)
      | true =>
        simp only [if_pos] at h2
        have hst2 : st2 = { tiles := st1.tiles ++ [],
                            images := aput st1.images b (buildManifest b img
                              ([] ++ (ExtractTiles hashFn img T).map
                                (fun t => ⟨t.x, t.y, t.id, .Duplicate⟩))) } := by
          injection h2 with hA hB
          exact hA.symm
        constructor
        · rw [hst2]
          unfold GetStorageStats
          simp
        · refine ⟨buildManifest b img
            ([] ++ (ExtractTiles hashFn img T).map
              (fun t => ⟨t.x, t.y, t.id, .Duplicate⟩)), ?_, ?_⟩
          · rw [hst2]
            exact aput_alookup_self _ _ _
          · intro r hr
            unfold buildManifest at hr
            simp only [List.nil_append, List.mem_map] at hr
            obtain ⟨u, _, rfl⟩ := hr
            rfl

/-- Concrete instance of the double-store deduplication (`T = 1`, a 1×1
raster stored under `"a"` then `"b"`). -/
theorem store_twice_all_duplicate_witness :
    (StoreRaster (fun d => d) (fun d => .ok d) 1 ⟨[], []⟩ "a"
        ⟨1, 1, fun _ _ => ⟨1, 2, 3⟩⟩ true =
      (⟨[([1, 2, 3], [1, 2, 3])],
        [("a", ⟨"a", 1, 1, [⟨0, 0, [1, 2, 3], .Unique⟩], 0⟩)]⟩, none)) ∧
    (StoreRaster (fun d => d) (fun d => .ok d) 1
        ⟨[([1, 2, 3], [1, 2, 3])],
          [("a", ⟨"a", 1, 1, [⟨0, 0, [1, 2, 3], .Unique⟩], 0⟩)]⟩ "b"
        ⟨1, 1, fun _ _ => ⟨1, 2, 3⟩⟩ true =
      (⟨[([1, 2, 3], [1, 2, 3])],
        [("a", ⟨"a", 1, 1, [⟨0, 0, [1, 2, 3], .Unique⟩], 0⟩),
         ("b", ⟨"b", 1, 1, [⟨0, 0, [1, 2, 3], .Duplicate⟩], 0⟩)]⟩, none)) ∧
    ((GetStorageStats (⟨[([1, 2, 3], [1, 2, 3])],
        [("a", ⟨"a", 1, 1, [⟨0, 0, [1, 2, 3], .Unique⟩], 0⟩),
         ("b", ⟨"b", 1, 1, [⟨0, 0, [1, 2, 3], .Duplicate⟩], 0⟩)]⟩ :
          PebbleState (List Nat))).uniqueTiles =
      (GetStorageStats (⟨[([1, 2, 3], [1, 2, 3])],
        [("a", ⟨"a", 1, 1, [⟨0, 0, [1, 2, 3], .Unique⟩], 0⟩)]⟩ :
          PebbleState (List Nat))).uniqueTiles ∧
      ∃ m, alookup "b" ([("a", (⟨"a", 1, 1, [⟨0, 0, [1, 2, 3], .Unique⟩], 0⟩ :
            StoredImage (List Nat))),
          ("b", ⟨"b", 1, 1, [⟨0, 0, [1, 2, 3], .Duplicate⟩], 0⟩)]) = some m ∧
        ∀ r ∈ m.tileRefs, r.storageType = .Duplicate) :=
  ⟨by decide, by decide,
    store_twice_all_duplicate (fun d => d) (fun d => .ok d) 1 ⟨[], []⟩ _ _
      ⟨1, 1, fun _ _ => ⟨1, 2, 3⟩⟩ "a" "b" true true (by decide) (by decide)⟩

/-- `C5`: `StoreImage` is atomic: it either returns an error with the
persistent store unchanged, or succeeds with exactly the batch's staged
writes applied — every staged tile is visible under its key and the
manifest is visible under the image ID, all in one commit. -/
theorem storeImage_atomic {H : Type} [DecidableEq H] (hashFn : List Nat → H)
    (compress : List Nat → Except String (List Nat))
    (decode : List Nat → Option Raster) (T : Nat) (st : PebbleState H)
    (id : String) (imageData : List Nat) (commitOk : Bool) :
    (∃ e, StoreImage hashFn compress decode T st id imageData commitOk =
      (st, some e)) ∨
    (∃ img acc,
      decode imageData = some img ∧
      processTiles st.tiles compress (ExtractTiles hashFn img T)
        ⟨[], [], []⟩ = .ok acc ∧
      StoreImage hashFn compress decode T st id imageData commitOk =
        ({ tiles := st.tiles ++ acc.staged,
           images := aput st.images id (buildManifest id img acc.refs) },
          none) ∧
      (∀ kv ∈ acc.staged,
        alookup kv.1 (st.tiles ++ acc.staged) = some kv.2) ∧
      alookup id (aput st.images id (buildManifest id img acc.refs)) =
        some (buildManifest id img acc.refs)) := by
  cases hdec : decode imageData with
  | none =>
    refine Or.inl ⟨"failed to decode image", ?_⟩
    simp [StoreImage, hdec]
  | some img =>
    cases hp : processTiles st.tiles compress (ExtractTiles hashFn img T)
        ⟨[], [], []⟩ with
    | error e =>
      refine Or.inl ⟨e, ?_⟩
      simp [StoreImage, StoreRaster, hdec, hp]
    | ok acc =>
      cases commitOk with
      | false =>
        refine Or.inl ⟨"failed to commit batch", ?_⟩
        simp [StoreImage, StoreRaster, hdec, hp]
      | true =>
        have hok : StoreImage hashFn compress decode T st id imageData true =
            ({ tiles := st.tiles ++ acc.staged,
               images := aput st.images id (buildManifest id img acc.refs) },
              none) := by
          simp [StoreImage, StoreRaster, hdec, hp]
        refine Or.inr ⟨img, acc, rfl, hp, hok, ?_, aput_alookup_self _ _ _⟩
        obtain ⟨hkeys, hnd, hfresh⟩ := processTiles_invariant st.tiles compress
          (ExtractTiles hashFn img T) ⟨[], [], []⟩ acc hp rfl (by simp)
          (by intro k hk; simp at hk)
        intro kv hkv
        have hkmem : kv.1 ∈ acc.processed := by
          rw [← hkeys]
          exact List.mem_map.mpr ⟨kv, hkv, rfl⟩
        rw [alookup_append_of_isNone kv.1 st.tiles acc.staged
          (hfresh kv.1 hkmem)]
        exact alookup_of_mem_nodup acc.staged kv.1 kv.2 hkv (hkeys ▸ hnd)

/-- `C6` evidence: at a concrete successful `StoreImage` call whose encoded
input has length 10, the persisted manifest records `originalBytes = 0`,
not 10 — `PebbleImageStore.StoreImage` never assigns the `OriginalBytes`
field it documents as "Size of original PNG input data". -/
theorem storeImage_manifest_originalBytes_zero :
    (alookup "img1"
      (StoreImage (fun d => d) (fun d => .ok d)
        (fun _ => some ⟨1, 1, fun _ _ => ⟨1, 2, 3⟩⟩) 1
        ⟨[], []⟩ "img1" [9, 9, 9, 9, 9, 9, 9, 9, 9, 9] true).1.images).map
      (fun m => m.originalBytes) = some 0 ∧
    ([9, 9, 9, 9, 9, 9, 9, 9, 9, 9] : List Nat).length = 10 := by
  decide

/-! ### Bolt-backed delta-enabled store (`delta.go`)

`BoltImageStore.StoreImage` writes tiles, deltas and features directly into
the transaction's buckets (writes are visible to later reads in the same
transaction), keyed by the tile's hash-derived ID. External collaborators
are parameters: the zstd tile compressor (total — `EncodeAll` cannot fail in
the source), the gzip compressor inside `ComputeDelta`, feature extraction
plus JSON marshalling (total on well-sized tile data), the similarity
matcher's `BestMatch` (whose definition is not part of the sources; only its
`Option` result matters here), and the recursive `getTileDataFromTx`
resolver used to fetch a base tile. The claims proved below hold for every
choice of these parameters. -/

/-- `TileDelta` from `store.go`: base tile ID plus compressed difference
bytes. -/
structure TileDelta (H : Type) where
  baseID : H
  delta : List Nat
deriving DecidableEq, Repr

/-- The tile reference written by the Bolt store (`delta.go`), carrying both
the `IsDelta` flag and the `StorageType` provenance tag. -/
structure BoltTileRef (H : Type) where
  x : Nat
  y : Nat
  tileID : H
  isDelta : Bool
  storageType : StorageType
deriving DecidableEq, Repr

/-- The four bucket collections of a `BoltImageStore` transaction:
`tiles`, `deltas`, `features` (values abstracted to `F`), and `images`
(manifest value reduced to its tile-reference sequence). -/
structure BoltState (H F : Type) where
  tiles : List (H × List Nat)
  deltas : List (H × TileDelta H)
  features : List (H × F)
  images : List (String × List (BoltTileRef H))
deriving DecidableEq, Repr

/-- The in-flight state of the Bolt per-tile loop: the transaction's bucket
contents, the in-memory similarity-matcher index (tile IDs added so far) and
the manifest references filled so far. -/
structure BoltAcc (H F : Type) where
  st : BoltState H F
  matcher : List H
  refs : List (BoltTileRef H)
deriving DecidableEq, Repr

/-- `ComputeDelta` as used by the Bolt write path, with the gzip compressor
`gz` kept abstract: after the two length checks, the result is the
compressed clamped `int8` difference sequence. -/
def boltComputeDelta {γ : Type} (gz : List Int → γ)
    (newTile baseTile : List Nat) (tileSize : Nat) : Except String γ :=
  if newTile.length ≠ baseTile.length then .error "tile sizes do not match"
  else if newTile.length ≠ tileSize * tileSize * 3 then
    .error "invalid tile size"
  else .ok (gz (computeDeltaRaw newTile baseTile))

/-- The direct-store path of the Bolt loop: put the compressed tile into
`tiles`, put its features into `features`, add the ID to the similarity
matcher, and reference the tile as `Unique`. -/
def boltDirectStore {H F : Type} [DecidableEq H]
    (compressZstd : List Nat → List Nat) (featFn : H → List Nat → F)
    (acc : BoltAcc H F) (t : TileEntry H) : BoltAcc H F :=
  { st := { acc.st with
      tiles := aput acc.st.tiles t.id (compressZstd t.data),
      features := aput acc.st.features t.id (featFn t.id t.data) },
    matcher := acc.matcher ++ [t.id],
    refs := acc.refs ++ [⟨t.x, t.y, t.id, false, .Unique⟩] }

/-- One iteration of the per-tile loop of `BoltImageStore.StoreImage`
(`delta.go`): (a) a hit in the `tiles` bucket references the tile as
`Duplicate`; (b) a hit in the `deltas` bucket likewise references it as
`Duplicate` (not `Delta`) and writes nothing; (c) with an empty matcher the
tile is stored directly; (d) otherwise, when delta tiles are enabled and a
best match is found, the base is resolved, the delta is computed and is
elected only if its size is under 3/4 of the raw tile size — any failure or
rejection on that path falls through to the direct store. -/
def boltProcessTile {H F : Type} [DecidableEq H] (T : Nat)
    (enableDelta : Bool) (compressZstd : List Nat → List Nat)
    (gz : List Int → List Nat) (featFn : H → List Nat → F)
    (bestMatchFn : List H → List Nat → Option H)
    (resolveTile : BoltState H F → H → Option (List Nat))
    (acc : BoltAcc H F) (t : TileEntry H) : BoltAcc H F :=
  if (alookup t.id acc.st.tiles).isSome then
    { acc with refs := acc.refs ++ [⟨t.x, t.y, t.id, false, .Duplicate⟩] }
  else if (alookup t.id acc.st.deltas).isSome then
    { acc with refs := acc.refs ++ [⟨t.x, t.y, t.id, false, .Duplicate⟩] }
  else if acc.matcher.length = 0 then
    boltDirectStore compressZstd featFn acc t
  else
    match (if enableDelta then bestMatchFn acc.matcher t.data else none) with
    | none => boltDirectStore compressZstd featFn acc t
    | some base =>
      match resolveTile acc.st base with
      | none => boltDirectStore compressZstd featFn acc t
      | some baseData =>
        match boltComputeDelta gz t.data baseData T with
        | .error _ => boltDirectStore compressZstd featFn acc t
        | .ok deltaData =>
          if deltaData.length < t.data.length * 3 / 4 then
            { acc with
              st := { acc.st with
                deltas := aput acc.st.deltas t.id ⟨base, deltaData⟩ },
              refs := acc.refs ++ [⟨t.x, t.y, t.id, true, .Delta⟩] }
          else boltDirectStore compressZstd featFn acc t

/-- `BoltImageStore.StoreImage` (`delta.go`): extract tiles, run the
per-tile loop threading the transaction state, then put the manifest into
the `images` bucket; the whole transaction commits together
(`s.db.Update`). Returns the committed state and the updated in-memory
matcher index. -/
def BoltStoreImage {H F : Type} [DecidableEq H] (hashFn : List Nat → H)
    (T : Nat) (enableDelta : Bool) (compressZstd : List Nat → List Nat)
    (gz : List Int → List Nat) (featFn : H → List Nat → F)
    (bestMatchFn : List H → List Nat → Option H)
    (resolveTile : BoltState H F → H → Option (List Nat))
    (st : BoltState H F) (matcher : List H) (id : String) (img : Raster) :
    BoltState H F × List H :=
  let acc := (ExtractTiles hashFn img T).foldl
    (boltProcessTile T enableDelta compressZstd gz featFn bestMatchFn
      resolveTile)
    ⟨st, matcher, []⟩
  ({ acc.st with images := aput acc.st.images id acc.refs }, acc.matcher)

theorem aput_alookup_ne {K V : Type} [DecidableEq K] (l : List (K × V))
    (k k' : K) (v : V) (h : k' ≠ k) :
    alookup k (aput l k' v) = alookup k l := by
  induction l with
  | nil => simp [aput, alookup, if_neg h]
  | cons p r ih =>
    obtain ⟨k0, v0⟩ := p
    by_cases hk : k0 = k'
    · simp only [aput, if_pos hk, alookup]
      rw [if_neg h, if_neg (hk ▸ h)]
    · simp only [aput, if_neg hk, alookup]
      by_cases hk0 : k0 = k
      · rw [if_pos hk0, if_pos hk0]
      · rw [if_neg hk0, if_neg hk0]
        exact ih

/-- One Bolt loop step neither overwrites nor removes anything stored under
a key that already has a `deltas` entry, and if the step's tile carries that
key its reference is `Duplicate` (not `Delta`). -/
theorem boltProcessTile_preserves {H F : Type} [DecidableEq H] (T : Nat)
    (enableDelta : Bool) (compressZstd : List Nat → List Nat)
    (gz : List Int → List Nat) (featFn : H → List Nat → F)
    (bestMatchFn : List H → List Nat → Option H)
    (resolveTile : BoltState H F → H → Option (List Nat))
    (k : H) (acc : BoltAcc H F) (t : TileEntry H)
    (hk : (alookup k acc.st.deltas).isSome) :
    alookup k (boltProcessTile T enableDelta compressZstd gz featFn
      bestMatchFn resolveTile acc t).st.tiles = alookup k acc.st.tiles ∧
    alookup k (boltProcessTile T enableDelta compressZstd gz featFn
      bestMatchFn resolveTile acc t).st.deltas = alookup k acc.st.deltas ∧
    alookup k (boltProcessTile T enableDelta compressZstd gz featFn
      bestMatchFn resolveTile acc t).st.features = alookup k acc.st.features ∧
    ∃ r, (boltProcessTile T enableDelta compressZstd gz featFn bestMatchFn
        resolveTile acc t).refs = acc.refs ++ [r] ∧
      (t.id = k → r = ⟨t.x, t.y, k, false, .Duplicate⟩) := by
  unfold boltProcessTile
  by_cases h1 : (alookup t.id acc.st.tiles).isSome
  · rw [if_pos h1]
    exact ⟨rfl, rfl, rfl, ⟨t.x, t.y, t.id, false, .Duplicate⟩, rfl,
      fun he => by rw [he]⟩
  · rw [if_neg h1]
    by_cases h2 : (alookup t.id acc.st.deltas).isSome
    · rw [if_pos h2]
      exact ⟨rfl, rfl, rfl, ⟨t.x, t.y, t.id, false, .Duplicate⟩, rfl,
        fun he => by rw [he]⟩
    · rw [if_neg h2]
      have hne : t.id ≠ k := by
        intro he
        exact h2 (he ▸ hk)
      have hdirect :
          alookup k (boltDirectStore compressZstd featFn acc t).st.tiles =
            alookup k acc.st.tiles ∧
          alookup k (boltDirectStore compressZstd featFn acc t).st.deltas =
            alookup k acc.st.deltas ∧
          alookup k (boltDirectStore compressZstd featFn acc t).st.features =
            alookup k acc.st.features ∧
          ∃ r, (boltDirectStore compressZstd featFn acc t).refs =
              acc.refs ++ [r] ∧
            (t.id = k → r = ⟨t.x, t.y, k, false, .Duplicate⟩) := by
        unfold boltDirectStore
        exact ⟨aput_alookup_ne _ _ _ _ hne, rfl, aput_alookup_ne _ _ _ _ hne,
          ⟨t.x, t.y, t.id, false, .Unique⟩, rfl,
          fun he => absurd he hne⟩
      by_cases h3 : acc.matcher.length = 0
      · rw [if_pos h3]
        exact hdirect
      · rw [if_neg h3]
        split
        · exact hdirect
        · split
          · exact hdirect
          · split
            · exact hdirect
            · split
              · exact ⟨rfl, aput_alookup_ne _ _ _ _ hne, rfl,
                  ⟨t.x, t.y, t.id, true, .Delta⟩, rfl,
                  fun he => absurd he hne⟩
              · exact hdirect

/-- The Bolt loop over any tile list preserves everything stored under a
key with a `deltas` entry, appends one reference per tile, and marks every
tile carrying that key as `Duplicate`. -/
theorem boltFold_preserves {H F : Type} [DecidableEq H] (T : Nat)
    (enableDelta : Bool) (compressZstd : List Nat → List Nat)
    (gz : List Int → List Nat) (featFn : H → List Nat → F)
    (bestMatchFn : List H → List Nat → Option H)
    (resolveTile : BoltState H F → H → Option (List Nat)) (k : H) :
    ∀ (ts : List (TileEntry H)) (acc : BoltAcc H F),
      (alookup k acc.st.deltas).isSome →
      alookup k (ts.foldl (boltProcessTile T enableDelta compressZstd gz
          featFn bestMatchFn resolveTile) acc).st.tiles =
        alookup k acc.st.tiles ∧
      alookup k (ts.foldl (boltProcessTile T enableDelta compressZstd gz
          featFn bestMatchFn resolveTile) acc).st.deltas =
        alookup k acc.st.deltas ∧
      alookup k (ts.foldl (boltProcessTile T enableDelta compressZstd gz
          featFn bestMatchFn resolveTile) acc).st.features =
        alookup k acc.st.features ∧
      ∃ newRefs,
        (ts.foldl (boltProcessTile T enableDelta compressZstd gz featFn
          bestMatchFn resolveTile) acc).refs = acc.refs ++ newRefs ∧
        newRefs.length = ts.length ∧
        ∀ j (hj : j < ts.length), ts[j].id = k →
          newRefs[j]? = some ⟨ts[j].x, ts[j].y, k, false, .Duplicate⟩ := by
  intro ts
  induction ts with
  | nil =>
    intro acc hk
    exact ⟨rfl, rfl, rfl, [], by simp, rfl, by intro j hj; simp at hj⟩
  | cons t rest ih =>
    intro acc hk
    rw [List.foldl_cons]
    obtain ⟨ht1, ht2, ht3, r, hr, hrdup⟩ := boltProcessTile_preserves T
      enableDelta compressZstd gz featFn bestMatchFn resolveTile k acc t hk
    have hk1 : (alookup k (boltProcessTile T enableDelta compressZstd gz
        featFn bestMatchFn resolveTile acc t).st.deltas).isSome := by
      rw [ht2]
      exact hk
    obtain ⟨hs1, hs2, hs3, newRefs, hnr, hlen, hdup⟩ := ih _ hk1
    refine ⟨by rw [hs1, ht1], by rw [hs2, ht2], by rw [hs3, ht3],
      r :: newRefs, ?_, by simp [hlen], ?_⟩
    · rw [hnr, hr, List.append_assoc]
      rfl
    · intro j hj hjk
      cases j with
      | zero =>
        simp only [List.getElem?_cons_zero, Option.some.injEq]
        have ht : t.id = k := by simpa using hjk
        exact hrdup ht
      | succ j' =>
        simp only [List.getElem?_cons_succ]
        have hj' : j' < rest.length := by simpa using hj
        have hjk' : rest[j'].id = k := by simpa using hjk
        have := hdup j' hj' hjk'
        simpa using this

/-- `C9`: in the delta-enabled Bolt write path, a tile whose ID already has
an entry in the `deltas` collection is treated as a duplicate — its
reference is marked `Duplicate` with `isDelta = false` (not `Delta`), and no
tile, delta or feature value is written or replaced under that ID — for
every choice of the external parameters (compressors, feature extractor,
best-match oracle, base resolver) and of the configuration. -/
theorem bolt_deltas_entry_dedup {H F : Type} [DecidableEq H]
    (hashFn : List Nat → H) (T : Nat) (enableDelta : Bool)
    (compressZstd : List Nat → List Nat) (gz : List Int → List Nat)
    (featFn : H → List Nat → F)
    (bestMatchFn : List H → List Nat → Option H)
    (resolveTile : BoltState H F → H → Option (List Nat))
    (st0 : BoltState H F) (matcher0 : List H) (id : String) (img : Raster)
    (i : Nat) (hi : i < (ExtractTiles hashFn img T).length)
    (hdel : (alookup (ExtractTiles hashFn img T)[i].id st0.deltas).isSome) :
    ∃ refs, alookup id (BoltStoreImage hashFn T enableDelta compressZstd gz
        featFn bestMatchFn resolveTile st0 matcher0 id img).1.images =
        some refs ∧
      refs[i]? = some ⟨(ExtractTiles hashFn img T)[i].x,
        (ExtractTiles hashFn img T)[i].y,
        (ExtractTiles hashFn img T)[i].id, false, .Duplicate⟩ ∧
      alookup (ExtractTiles hashFn img T)[i].id
          (BoltStoreImage hashFn T enableDelta compressZstd gz featFn
            bestMatchFn resolveTile st0 matcher0 id img).1.tiles =
        alookup (ExtractTiles hashFn img T)[i].id st0.tiles ∧
      alookup (ExtractTiles hashFn img T)[i].id
          (BoltStoreImage hashFn T enableDelta compressZstd gz featFn
            bestMatchFn resolveTile st0 matcher0 id img).1.deltas =
        alookup (ExtractTiles hashFn img T)[i].id st0.deltas ∧
      alookup (ExtractTiles hashFn img T)[i].id
          (BoltStoreImage hashFn T enableDelta compressZstd gz featFn
            bestMatchFn resolveTile st0 matcher0 id img).1.features =
        alookup (ExtractTiles hashFn img T)[i].id st0.features := by
  obtain ⟨h1, h2, h3, newRefs, hnr, hlen, hdup⟩ := boltFold_preserves T
    enableDelta compressZstd gz featFn bestMatchFn resolveTile
    (ExtractTiles hashFn img T)[i].id (ExtractTiles hashFn img T)
    ⟨st0, matcher0, []⟩ hdel
  refine ⟨newRefs, ?_, ?_, ?_, ?_, ?_⟩
  · unfold BoltStoreImage
    simp only
    rw [hnr]
    simp only [List.nil_append]
    exact aput_alookup_self _ _ _
  · have := hdup i hi rfl
    exact this
  · unfold BoltStoreImage
    simp only
    exact h1
  · unfold BoltStoreImage
    simp only
    exact h2
  · unfold BoltStoreImage
    simp only
    exact h3

/-- Concrete instance of the `deltas`-hit dedup branch: a 1×1 raster whose
single tile ID already has a delta entry. -/
theorem bolt_deltas_entry_dedup_witness :
    (0 < (ExtractTiles (fun d => d) ⟨1, 1, fun _ _ => ⟨1, 2, 3⟩⟩ 1).length) ∧
    ((alookup (ExtractTiles (fun d => d)
        ⟨1, 1, fun _ _ => ⟨1, 2, 3⟩⟩ 1)[0].id
      ([([1, 2, 3], ⟨[9], [0]⟩)] :
        List (List Nat × TileDelta (List Nat)))).isSome) ∧
    ∃ refs, alookup "x" (BoltStoreImage (fun d => d) 1 true (fun d => d)
        (fun _ => []) (fun _ _ => ()) (fun _ _ => none) (fun _ _ => none)
        ⟨[], [([1, 2, 3], ⟨[9], [0]⟩)], [], []⟩ [] "x"
        ⟨1, 1, fun _ _ => ⟨1, 2, 3⟩⟩).1.images = some refs ∧
      refs[0]? = some ⟨(ExtractTiles (fun d => d)
          ⟨1, 1, fun _ _ => ⟨1, 2, 3⟩⟩ 1)[0].x,
        (ExtractTiles (fun d => d) ⟨1, 1, fun _ _ => ⟨1, 2, 3⟩⟩ 1)[0].y,
        (ExtractTiles (fun d => d) ⟨1, 1, fun _ _ => ⟨1, 2, 3⟩⟩ 1)[0].id,
        false, .Duplicate⟩ ∧
      alookup (ExtractTiles (fun d => d)
          ⟨1, 1, fun _ _ => ⟨1, 2, 3⟩⟩ 1)[0].id
          (BoltStoreImage (fun d => d) 1 true (fun d => d) (fun _ => [])
            (fun _ _ => ()) (fun _ _ => none) (fun _ _ => none)
            ⟨[], [([1, 2, 3], ⟨[9], [0]⟩)], [], []⟩ [] "x"
            ⟨1, 1, fun _ _ => ⟨1, 2, 3⟩⟩).1.tiles =
        alookup (ExtractTiles (fun d => d)
          ⟨1, 1, fun _ _ => ⟨1, 2, 3⟩⟩ 1)[0].id
          ([] : List (List Nat × List Nat)) ∧
      alookup (ExtractTiles (fun d => d)
          ⟨1, 1, fun _ _ => ⟨1, 2, 3⟩⟩ 1)[0].id
          (BoltStoreImage (fun d => d) 1 true (fun d => d) (fun _ => [])
            (fun _ _ => ()) (fun _ _ => none) (fun _ _ => none)
            ⟨[], [([1, 2, 3], ⟨[9], [0]⟩)], [], []⟩ [] "x"
            ⟨1, 1, fun _ _ => ⟨1, 2, 3⟩⟩).1.deltas =
        alookup (ExtractTiles (fun d => d)
          ⟨1, 1, fun _ _ => ⟨1, 2, 3⟩⟩ 1)[0].id
          ([([1, 2, 3], ⟨[9], [0]⟩)] :
            List (List Nat × TileDelta (List Nat))) ∧
      alookup (ExtractTiles (fun d => d)
          ⟨1, 1, fun _ _ => ⟨1, 2, 3⟩⟩ 1)[0].id
          (BoltStoreImage (fun d => d) 1 true (fun d => d) (fun _ => [])
            (fun _ _ => ()) (fun _ _ => none) (fun _ _ => none)
            ⟨[], [([1, 2, 3], ⟨[9], [0]⟩)], [], []⟩ [] "x"
            ⟨1, 1, fun _ _ => ⟨1, 2, 3⟩⟩).1.features =
        alookup (ExtractTiles (fun d => d)
          ⟨1, 1, fun _ _ => ⟨1, 2, 3⟩⟩ 1)[0].id
          ([] : List (List Nat × Unit)) :=
  ⟨by decide, by decide,
    bolt_deltas_entry_dedup (fun d => d) 1 true (fun d => d) (fun _ => [])
      (fun _ _ => ()) (fun _ _ => none) (fun _ _ => none)
      ⟨[], [([1, 2, 3], ⟨[9], [0]⟩)], [], []⟩ [] "x"
      ⟨1, 1, fun _ _ => ⟨1, 2, 3⟩⟩ 0 (by decide) (by decide)⟩

end ImageStore
